import Mathlib

/-!
Verification of `compress_history.py`, a personal shell-history sanitizer.

Modelling conventions (shallow embedding):
- Python strings are `List Char`; `None` is `Option.none`.
- `os.environ.get("SHELL")` is an explicit `Option (List Char)` input;
  `sys.exit(1)` after a printed message is `Except.error msg`.
- The regex `(: \d+:\d+;)(.+)` used with `re.search` is modelled by
  `zsh_match_at` (one match attempt at a fixed position) and `zsh_search`
  (leftmost position at which the attempt succeeds).  At a fixed position
  the pattern is deterministic: `\d+` is followed by the literal `:` or
  `;`, which are not digits, so greedy maximal munch admits no useful
  backtracking, and `(.+)` greedily takes every remaining character up to
  a newline (Python `.` matches everything except `\n`).  `\d` is
  modelled as the ASCII digits, which `Char.isDigit` decides.
-/

/-- Shell variants recognized by the script (`class ShellType(StrEnum)`,
whose members are `zsh` and `bash`). -/
inductive ShellType
  | ZSH
  | BASH
deriving DecidableEq

/-- Python `s.startswith(p)` on strings modelled as character lists:
`p` is the candidate leading piece of `s`. -/
def starts_with : List Char → List Char → Bool
  | _, [] => true
  | [], _ :: _ => false
  | c :: s, p :: ps => c == p && starts_with s ps

/-- One step of the regex: `\d+` followed by the literal character `c`.
Consumes a nonempty maximal digit run and then `c`, returning the
remainder of the input; fails otherwise.  Maximal munch is exact here
because the literal after the digit run is never itself a digit. -/
def digits_then (c : Char) (s : List Char) : Option (List Char) :=
  let ds := s.takeWhile Char.isDigit
  if ds.isEmpty then none
  else
    match s.drop ds.length with
    | x :: rest => if x = c then some rest else none
    | [] => none

/-- One attempt of the pattern `(: \d+:\d+;)(.+)` anchored at the start of
`s` (a single position tried by `re.search`).  On success returns group 2:
the maximal nonempty run of non-newline characters after the `;`. -/
def zsh_match_at (s : List Char) : Option (List Char) :=
  match s with
  | ':' :: ' ' :: r1 =>
    match digits_then ':' r1 with
    | none => none
    | some r2 =>
      match digits_then ';' r2 with
      | none => none
      | some tail =>
        let cmd := tail.takeWhile (fun c => c != '\n')
        if cmd.isEmpty then none else some cmd
  | _ => none

/-- `re.search` of the pattern over `s`: try every position left to right,
returning the first successful match attempt. -/
def zsh_search : List Char → Option (List Char)
  | [] => none
  | c :: rest =>
    match zsh_match_at (c :: rest) with
    | some cmd => some cmd
    | none => zsh_search rest

/-- `parse_history_entry`: for ZSH, `re.search` of `(: \d+:\d+;)(.+)` over
the raw entry, returning group 2 on a match and `None` otherwise; for
BASH, the raw entry itself, unchanged. -/
def parse_history_entry (entry : List Char) (shellt : ShellType) : Option (List Char) :=
  match shellt with
  | ShellType.ZSH => zsh_search entry
  | ShellType.BASH => some entry

/-- The hardcoded prefix-rejection list `_starts_with` from `filter`. -/
def startsWithList : List (List Char) :=
  [("source".toList), ("git commit".toList)]

/-- The hardcoded editor-name list `_editors` from `filter`. -/
def editorsList : List (List Char) :=
  [("nano".toList), ("vim".toList), ("nvim".toList), ("subl".toList),
   ("code".toList), ("emacs".toList)]

/-- The hardcoded exact-match list `_exact_match` from `filter`. -/
def exactMatchList : List (List Char) :=
  [("python".toList), ("clear".toList), ("ls".toList), ("pwd".toList),
   ("cd ~".toList), ("cd /".toList), ("cd".toList), ("cd ..".toList),
   ("cd .".toList)]

/-- `filter`: `True` iff the parsed entry should be retained.  `keep`
starts `True` and is cleared by the first matching rule: exact match,
then editor name, then `sum([parsed_entry.startswith(s) for s in
_starts_with]) > 0` (the sum of booleans is modelled as a sum of 0/1
indicators). -/
def filter (parsed_entry : List Char) : Bool :=
  if parsed_entry ∈ exactMatchList then false
  else if parsed_entry ∈ editorsList then false
  else if 0 < ((startsWithList.map
      (fun s => if starts_with parsed_entry s then (1 : Nat) else 0)).sum) then false
  else true

/-- `remove_long_commands`: `True` iff the parsed entry should be
retained, i.e. `False` exactly when its length exceeds `command_length`
(whose Python default is 60). -/
def remove_long_commands (parsed_entry : List Char) (command_length : Nat) : Bool :=
  if parsed_entry.length > command_length then false else true

/-- The loop of `clean_history_file`, processing `reversed(raw_history)`
and producing `results` in iteration order (reverse chronological).
`seen` is the mutable set `unique_parsed_entries`, modelled as a list
queried only through membership.  An unparseable entry is always kept
(and `None` is recorded as seen); a parsed entry is dropped when the
retention filter rejects it, or when `dedup` holds and its parsed value
was already seen; a kept entry records its parsed value as seen. -/
def clean_rev (shellt : ShellType) (dedup : Bool) :
    List (List Char) → List (Option (List Char)) → List (List Char)
  | [], _ => []
  | entry :: rest, seen =>
    match parse_history_entry entry shellt with
    | none => entry :: clean_rev shellt dedup rest (none :: seen)
    | some p =>
      if filter p = false then clean_rev shellt dedup rest seen
      else if dedup = true ∧ some p ∈ seen then clean_rev shellt dedup rest seen
      else entry :: clean_rev shellt dedup rest (some p :: seen)

/-- `clean_history_file`: run the loop over `reversed(raw_history)` with
an empty seen-set and empty `results`, then `results.reverse()` restores
chronological order.  The Python default for `dedup` is `True`. -/
def clean_history_file (raw_history : List (List Char)) (shellt : ShellType)
    (dedup : Bool) : List (List Char) :=
  (clean_rev shellt dedup raw_history.reverse []).reverse

/-- Python `shell.split("/")[-1]`: the suffix of `s` after its last `/`
(the whole string when no `/` occurs). -/
def last_path_component (s : List Char) : List Char :=
  (s.reverse.takeWhile (fun c => c != '/')).reverse

/-- `get_shell_type`: reads the `SHELL` value (here an explicit
argument).  An unset or empty value is falsy and exits with a message;
otherwise `ShellType(shell.split("/")[-1])` succeeds exactly when the
last path component is `zsh` or `bash`, and any `ValueError` exits with a
message. -/
def get_shell_type (shell : Option (List Char)) : Except (List Char) ShellType :=
  match shell with
  | none => Except.error ("Can\x27t determine type of shell, exiting.".toList)
  | some s =>
    if s = [] then Except.error ("Can\x27t determine type of shell, exiting.".toList)
    else if last_path_component s = ("zsh".toList) then Except.ok ShellType.ZSH
    else if last_path_component s = ("bash".toList) then Except.ok ShellType.BASH
    else Except.error (("Unsupported shell type ".toList) ++ s ++ (", exiting.".toList))

/-- The Boolean predicate selecting the raw entries whose parsed command
is exactly `c`. -/
def parses_to (st : ShellType) (c : List Char) (e : List Char) : Bool :=
  decide (parse_history_entry e st = some c)

/-- The Boolean predicate selecting the raw entries on which the parser
fails (the unparseable sentinel `None`). -/
def unparseable (st : ShellType) (e : List Char) : Bool :=
  (parse_history_entry e st).isNone

/-- The parsed commands of the parseable entries of `l`, in order. -/
def parsedCmds (st : ShellType) (l : List (List Char)) : List (List Char) :=
  l.filterMap (fun e => parse_history_entry e st)

lemma zsh_match_at_ne_nil {s c : List Char} (h : zsh_match_at s = some c) :
    c ≠ [] := by
  unfold zsh_match_at at h
  repeat' split at h
  all_goals simp_all
  obtain ⟨⟨hl, hne⟩, hc⟩ := h
  subst hc
  intro hemp
  rw [List.takeWhile_eq_nil_iff] at hemp
  have := hemp hl
  simp at this
  exact hne this

lemma zsh_search_ne_nil {s c : List Char} (h : zsh_search s = some c) :
    c ≠ [] := by
  induction s with
  | nil => simp [zsh_search] at h
  | cons x rest ih =>
    simp only [zsh_search] at h
    cases hm : zsh_match_at (x :: rest) with
    | some cmd => rw [hm] at h; cases h; exact zsh_match_at_ne_nil hm
    | none => rw [hm] at h; exact ih h

example : parse_history_entry (": 1:1;ls".toList) ShellType.ZSH = some ("ls".toList) := by decide
example : parse_history_entry (": 1:2;".toList) ShellType.ZSH = none := by decide
example : parse_history_entry ("echo : 1:2;x".toList) ShellType.ZSH = some ("x".toList) := by decide
example : parse_history_entry (": 1:2;echo hi\n".toList) ShellType.ZSH = some ("echo hi".toList) := by decide
example : filter ("cd".toList) = false := by decide
example : filter ("cd\n".toList) = true := by decide
example : filter ("git commit -m x".toList) = false := by decide
example : clean_history_file [(": 1:1;ls".toList), (": 2:1;echo hi".toList), (": 3:1;echo hi".toList)]
    ShellType.ZSH true = [(": 3:1;echo hi".toList)] := by decide
example : clean_history_file [("cd".toList), ("ls -la".toList), ("cd".toList)]
    ShellType.BASH true = [("ls -la".toList)] := by decide
example : get_shell_type (some ("/bin/zsh".toList)) = Except.ok ShellType.ZSH := by rfl
example : (get_shell_type (some ("fish".toList))).isOk = false := by rfl

lemma cleanRev_filter_eq_nil_of_seen (st : ShellType) (c : List Char)
    (l : List (List Char)) :
    ∀ seen : List (Option (List Char)), some c ∈ seen →
      List.filter (parses_to st c) (clean_rev st true l seen) = [] := by
  induction l with
  | nil => intro seen _; simp [clean_rev]
  | cons e rest ih =>
    intro seen hseen
    cases hp : parse_history_entry e st with
    | none =>
      have hpc : parses_to st c e = false := by simp [parses_to, hp]
      simp only [clean_rev, hp, List.filter_cons, hpc, Bool.false_eq_true, if_false]
      exact ih (none :: seen) (List.mem_cons_of_mem _ hseen)
    | some p =>
      simp only [clean_rev, hp]
      by_cases hf : filter p = false
      · rw [if_pos hf]
        exact ih seen hseen
      · rw [if_neg hf]
        by_cases hd : some p ∈ seen
        · rw [if_pos (show True ∧ some p ∈ seen from ⟨trivial, hd⟩)]
          exact ih seen hseen
        · have hnd : ¬(True ∧ some p ∈ seen) := fun hx => hd hx.2
          rw [if_neg hnd]
          have hne : ¬p = c := fun hx => hd (hx ▸ hseen)
          have hpc : parses_to st c e = false := by
            simp only [parses_to, hp, decide_eq_false_iff_not]
            intro hx
            exact hne (Option.some.inj hx)
          rw [List.filter_cons]
          simp only [hpc, Bool.false_eq_true, if_false]
          exact ih (some p :: seen) (List.mem_cons_of_mem _ hseen)

lemma cleanRev_filter_take_one (st : ShellType) (c : List Char)
    (hc : filter c = true) (l : List (List Char)) :
    ∀ seen : List (Option (List Char)), some c ∉ seen →
      List.filter (parses_to st c) (clean_rev st true l seen)
        = List.take 1 (List.filter (parses_to st c) l) := by
  induction l with
  | nil => intro seen _; simp [clean_rev]
  | cons e rest ih =>
    intro seen hseen
    cases hp : parse_history_entry e st with
    | none =>
      have hpc : parses_to st c e = false := by simp [parses_to, hp]
      simp only [clean_rev, hp, List.filter_cons, hpc, Bool.false_eq_true, if_false]
      exact ih (none :: seen) (by simp [hseen])
    | some p =>
      by_cases hpceq : p = c
      · subst hpceq
        simp only [clean_rev, hp]
        rw [if_neg (by simp [hc])]
        have hnd : ¬(True ∧ some p ∈ seen) := fun hx => hseen hx.2
        rw [if_neg hnd]
        have hpc : parses_to st p e = true := by simp [parses_to, hp]
        rw [List.filter_cons, List.filter_cons]
        simp only [hpc, if_true]
        rw [cleanRev_filter_eq_nil_of_seen st p rest (some p :: seen)
          (List.mem_cons_self _ _)]
        simp [List.take]
      · have hpc : parses_to st c e = false := by
          simp only [parses_to, hp, decide_eq_false_iff_not]
          intro hx
          exact hpceq (Option.some.inj hx)
        simp only [clean_rev, hp]
        by_cases hf : filter p = false
        · rw [if_pos hf]
          rw [ih seen hseen]
          simp only [List.filter_cons, hpc, Bool.false_eq_true, if_false]
        · rw [if_neg hf]
          by_cases hd : some p ∈ seen
          · rw [if_pos (show True ∧ some p ∈ seen from ⟨trivial, hd⟩)]
            rw [ih seen hseen]
            simp only [List.filter_cons, hpc, Bool.false_eq_true, if_false]
          · rw [if_neg (show ¬(True ∧ some p ∈ seen) from fun hx => hd hx.2)]
            have hnotin : some c ∉ (some p :: seen) := by
              intro hx
              rcases List.mem_cons.mp hx with h | h
              · exact hpceq (Option.some.inj h).symm
              · exact hseen h
            rw [List.filter_cons]
            simp only [hpc, Bool.false_eq_true, if_false]
            rw [ih (some p :: seen) hnotin]
            simp only [List.filter_cons, hpc, Bool.false_eq_true, if_false]

lemma cleanRev_nodedup_filter (st : ShellType) (c : List Char)
    (hc : filter c = true) (l : List (List Char)) :
    ∀ seen : List (Option (List Char)),
      List.filter (parses_to st c) (clean_rev st false l seen)
        = List.filter (parses_to st c) l := by
  induction l with
  | nil => intro seen; simp [clean_rev]
  | cons e rest ih =>
    intro seen
    cases hp : parse_history_entry e st with
    | none =>
      have hpc : parses_to st c e = false := by simp [parses_to, hp]
      simp only [clean_rev, hp, List.filter_cons, hpc, Bool.false_eq_true, if_false]
      exact ih _
    | some p =>
      simp only [clean_rev, hp]
      by_cases hf : filter p = false
      · have hpc : parses_to st c e = false := by
          simp only [parses_to, hp, decide_eq_false_iff_not]
          intro hx
          rw [Option.some.inj hx] at hf
          rw [hf] at hc
          exact Bool.noConfusion hc
        rw [if_pos hf]
        rw [ih seen]
        simp only [List.filter_cons, hpc, Bool.false_eq_true, if_false]
      · rw [if_neg hf]
        rw [if_neg (show ¬(false = true ∧ some p ∈ seen) from
          fun hx => Bool.noConfusion hx.1)]
        rw [List.filter_cons, List.filter_cons]
        cases hpc : parses_to st c e with
        | false =>
          simp only [Bool.false_eq_true, if_false]
          exact ih _
        | true =>
          simp only [if_true]
          rw [ih _]

lemma cleanRev_filter_of_rejected (st : ShellType) (c : List Char)
    (hc : filter c = false) (dedup : Bool) (l : List (List Char)) :
    ∀ seen : List (Option (List Char)),
      List.filter (parses_to st c) (clean_rev st dedup l seen) = [] := by
  induction l with
  | nil => intro seen; simp [clean_rev]
  | cons e rest ih =>
    intro seen
    cases hp : parse_history_entry e st with
    | none =>
      have hpc : parses_to st c e = false := by simp [parses_to, hp]
      simp only [clean_rev, hp, List.filter_cons, hpc, Bool.false_eq_true, if_false]
      exact ih _
    | some p =>
      simp only [clean_rev, hp]
      by_cases hpceq : p = c
      · subst hpceq
        rw [if_pos hc]
        exact ih _
      · have hpc : parses_to st c e = false := by
          simp only [parses_to, hp, decide_eq_false_iff_not]
          intro hx
          exact hpceq (Option.some.inj hx)
        by_cases hf : filter p = false
        · rw [if_pos hf]
          exact ih _
        · rw [if_neg hf]
          by_cases hd : dedup = true ∧ some p ∈ seen
          · rw [if_pos hd]
            exact ih _
          · rw [if_neg hd]
            rw [List.filter_cons]
            simp only [hpc, Bool.false_eq_true, if_false]
            exact ih _

lemma cleanRev_filter_unparseable (st : ShellType) (dedup : Bool)
    (l : List (List Char)) :
    ∀ seen : List (Option (List Char)),
      List.filter (unparseable st) (clean_rev st dedup l seen)
        = List.filter (unparseable st) l := by
  induction l with
  | nil => intro seen; simp [clean_rev]
  | cons e rest ih =>
    intro seen
    cases hp : parse_history_entry e st with
    | none =>
      have hu : unparseable st e = true := by simp [unparseable, hp]
      simp only [clean_rev, hp, List.filter_cons, hu, if_true]
      rw [ih _]
    | some p =>
      have hu : unparseable st e = false := by simp [unparseable, hp]
      simp only [clean_rev, hp]
      by_cases hf : filter p = false
      · rw [if_pos hf]
        rw [ih seen]
        simp only [List.filter_cons, hu, Bool.false_eq_true, if_false]
      · rw [if_neg hf]
        by_cases hd : dedup = true ∧ some p ∈ seen
        · rw [if_pos hd]
          rw [ih seen]
          simp only [List.filter_cons, hu, Bool.false_eq_true, if_false]
        · rw [if_neg hd]
          rw [List.filter_cons, List.filter_cons]
          simp only [hu, Bool.false_eq_true, if_false]
          exact ih _

lemma cleanRev_sublist (st : ShellType) (dedup : Bool) (l : List (List Char)) :
    ∀ seen : List (Option (List Char)),
      List.Sublist (clean_rev st dedup l seen) l := by
  induction l with
  | nil => intro seen; simp [clean_rev]
  | cons e rest ih =>
    intro seen
    cases hp : parse_history_entry e st with
    | none =>
      simp only [clean_rev, hp]
      exact List.Sublist.cons₂ _ (ih _)
    | some p =>
      simp only [clean_rev, hp]
      by_cases hf : filter p = false
      · rw [if_pos hf]
        exact List.Sublist.cons _ (ih _)
      · rw [if_neg hf]
        by_cases hd : dedup = true ∧ some p ∈ seen
        · rw [if_pos hd]
          exact List.Sublist.cons _ (ih _)
        · rw [if_neg hd]
          exact List.Sublist.cons₂ _ (ih _)

lemma clean_filter_dedup (raw : List (List Char)) (st : ShellType)
    (c : List Char) (hc : filter c = true) :
    List.filter (parses_to st c) (clean_history_file raw st true)
      = ((List.filter (parses_to st c) raw).getLast?).toList := by
  unfold clean_history_file
  rw [List.filter_reverse]
  rw [cleanRev_filter_take_one st c hc raw.reverse [] (by simp)]
  rw [List.filter_reverse, List.take_one, List.head?_reverse]
  cases (List.filter (parses_to st c) raw).getLast? <;> simp

lemma clean_filter_nodedup (raw : List (List Char)) (st : ShellType)
    (c : List Char) (hc : filter c = true) :
    List.filter (parses_to st c) (clean_history_file raw st false)
      = List.filter (parses_to st c) raw := by
  unfold clean_history_file
  rw [List.filter_reverse, cleanRev_nodedup_filter st c hc raw.reverse [],
      List.filter_reverse, List.reverse_reverse]

lemma clean_filter_rejected (raw : List (List Char)) (st : ShellType)
    (c : List Char) (dedup : Bool) (hc : filter c = false) :
    List.filter (parses_to st c) (clean_history_file raw st dedup) = [] := by
  unfold clean_history_file
  rw [List.filter_reverse, cleanRev_filter_of_rejected st c hc dedup raw.reverse []]
  rfl

/-- C1 counterexample: a ZSH line that is exactly a timestamp prefix
`: <digits>:<digits>;` with an empty tail is NOT parsed into the
empty-string command — `parse_history_entry` returns the unparseable
sentinel, because the regex group `(.+)` requires a nonempty tail. -/
theorem C1_counterexample :
    parse_history_entry (": 1:2;".toList) ShellType.ZSH = none
    ∧ parse_history_entry (": 1:2;".toList) ShellType.ZSH ≠ some [] :=
  ⟨rfl, by decide⟩

/-- C1 (amended): for the ZSH variant a raw line whose timestamp prefix
has an empty tail never yields the empty-string command: the parser never
returns an empty command at all, and an empty-tailed prefix line is
unparseable and therefore retained verbatim by the clean pass. -/
theorem C1_zsh_empty_tail_unparseable :
    (∀ e c : List Char, parse_history_entry e ShellType.ZSH = some c → c ≠ [])
    ∧ ∀ dedup : Bool, clean_history_file [(": 1:2;".toList)] ShellType.ZSH dedup
        = [(": 1:2;".toList)] := by
  constructor
  · intro e c h
    exact zsh_search_ne_nil h
  · intro dedup
    cases dedup <;> rfl

theorem C1_witness :
    parse_history_entry (": 1:2;x".toList) ShellType.ZSH = some ("x".toList)
    ∧ ("x".toList : List Char) ≠ [] :=
  ⟨rfl, C1_zsh_empty_tail_unparseable.1 (": 1:2;x".toList) ("x".toList) rfl⟩

/-- C2: among the raw entries whose parsed command is `c` and where `c`
passes the retention filter, with dedup enabled exactly the
chronologically last one survives `clean_history_file`; with dedup
disabled all of them survive; and when the retention filter rejects `c`,
every such entry is dropped in both modes. -/
theorem C2_dedup_keeps_last_occurrence (raw : List (List Char))
    (st : ShellType) (c : List Char) :
    (filter c = true →
      List.filter (parses_to st c) (clean_history_file raw st true)
        = ((List.filter (parses_to st c) raw).getLast?).toList
      ∧ List.filter (parses_to st c) (clean_history_file raw st false)
        = List.filter (parses_to st c) raw)
    ∧ (filter c = false → ∀ dedup : Bool,
      List.filter (parses_to st c) (clean_history_file raw st dedup) = []) :=
  ⟨fun hc => ⟨clean_filter_dedup raw st c hc, clean_filter_nodedup raw st c hc⟩,
   fun hc dedup => clean_filter_rejected raw st c dedup hc⟩

theorem C2_witness :
    filter ("echo hi".toList) = true
    ∧ List.filter (parses_to ShellType.ZSH ("echo hi".toList))
        (clean_history_file [(": 1:1;ls".toList), (": 2:1;echo hi".toList),
          (": 3:1;echo hi".toList)] ShellType.ZSH true)
      = [(": 3:1;echo hi".toList)] := by
  have h := (C2_dedup_keeps_last_occurrence
    [(": 1:1;ls".toList), (": 2:1;echo hi".toList), (": 3:1;echo hi".toList)]
    ShellType.ZSH ("echo hi".toList)).1 (by decide)
  exact ⟨by decide, h.1.trans (by decide)⟩

/-- C3: the assembled clean pass applies no length restriction: for a
command that passes the retention filter but fails `remove_long_commands`
at the default threshold 60, the chronologically last entry parsing to it
still survives with dedup enabled, and every such entry survives with
dedup disabled — `remove_long_commands` is never invoked by
`clean_history_file`. -/
theorem C3_no_length_restriction (raw : List (List Char)) (st : ShellType)
    (c e : List Char) (hkeep : filter c = true)
    (hlong : remove_long_commands c 60 = false) :
    ((List.filter (parses_to st c) raw).getLast? = some e →
      e ∈ clean_history_file raw st true)
    ∧ List.filter (parses_to st c) (clean_history_file raw st false)
      = List.filter (parses_to st c) raw := by
  constructor
  · intro hlast
    have h := clean_filter_dedup raw st c hkeep
    rw [hlast] at h
    have hmem : e ∈ List.filter (parses_to st c) (clean_history_file raw st true) := by
      rw [h]; simp [Option.toList]
    exact (List.mem_filter.mp hmem).1
  · exact clean_filter_nodedup raw st c hkeep

theorem C3_witness :
    filter ("echo aaaaaaaaaaaaaaaaaaaaaaaaaaaaaaaaaaaaaaaaaaaaaaaaaaaaaaaaaaaa".toList) = true
    ∧ remove_long_commands
        ("echo aaaaaaaaaaaaaaaaaaaaaaaaaaaaaaaaaaaaaaaaaaaaaaaaaaaaaaaaaaaa".toList) 60 = false
    ∧ (": 1:0;echo aaaaaaaaaaaaaaaaaaaaaaaaaaaaaaaaaaaaaaaaaaaaaaaaaaaaaaaaaaaa".toList)
        ∈ clean_history_file
          [(": 1:0;echo aaaaaaaaaaaaaaaaaaaaaaaaaaaaaaaaaaaaaaaaaaaaaaaaaaaaaaaaaaaa".toList)]
          ShellType.ZSH true := by
  refine ⟨by decide, by decide, ?_⟩
  exact (C3_no_length_restriction
    [(": 1:0;echo aaaaaaaaaaaaaaaaaaaaaaaaaaaaaaaaaaaaaaaaaaaaaaaaaaaaaaaaaaaa".toList)]
    ShellType.ZSH
    ("echo aaaaaaaaaaaaaaaaaaaaaaaaaaaaaaaaaaaaaaaaaaaaaaaaaaaaaaaaaaaa".toList)
    (": 1:0;echo aaaaaaaaaaaaaaaaaaaaaaaaaaaaaaaaaaaaaaaaaaaaaaaaaaaaaaaaaaaa".toList)
    (by decide) (by decide)).1 (by decide)

/-- C4: every raw entry on which the parser fails appears unchanged in
the output of `clean_history_file`, in its original relative order, with
deduplication enabled or disabled. -/
theorem C4_unparseable_preserved (raw : List (List Char)) (st : ShellType)
    (dedup : Bool) :
    List.filter (unparseable st) (clean_history_file raw st dedup)
      = List.filter (unparseable st) raw := by
  unfold clean_history_file
  rw [List.filter_reverse, cleanRev_filter_unparseable st dedup raw.reverse [],
      List.filter_reverse, List.reverse_reverse]

/-- C6: the output of `clean_history_file` is a subsequence of its input:
every surviving entry is a verbatim input entry, and the relative order
of surviving entries equals their relative order in the input. -/
theorem C6_output_sublist_of_input (raw : List (List Char)) (st : ShellType)
    (dedup : Bool) :
    List.Sublist (clean_history_file raw st dedup) raw := by
  unfold clean_history_file
  have h := (cleanRev_sublist st dedup raw.reverse []).reverse
  rwa [List.reverse_reverse] at h

lemma parsedCmds_cons_none {st : ShellType} {e : List Char}
    {l : List (List Char)} (hp : parse_history_entry e st = none) :
    parsedCmds st (e :: l) = parsedCmds st l :=
  List.filterMap_cons_none hp

lemma parsedCmds_cons_some {st : ShellType} {e p : List Char}
    {l : List (List Char)} (hp : parse_history_entry e st = some p) :
    parsedCmds st (e :: l) = p :: parsedCmds st l :=
  List.filterMap_cons_some hp

lemma cleanRev_output_invariant (st : ShellType) (l : List (List Char)) :
    ∀ seen : List (Option (List Char)),
      (parsedCmds st (clean_rev st true l seen)).Nodup
      ∧ ∀ c ∈ parsedCmds st (clean_rev st true l seen),
          filter c = true ∧ some c ∉ seen := by
  induction l with
  | nil => intro seen; simp [clean_rev, parsedCmds]
  | cons e rest ih =>
    intro seen
    cases hp : parse_history_entry e st with
    | none =>
      simp only [clean_rev, hp]
      rw [parsedCmds_cons_none hp]
      obtain ⟨hnd, hall⟩ := ih (none :: seen)
      refine ⟨hnd, fun c hc => ?_⟩
      obtain ⟨h1, h2⟩ := hall c hc
      exact ⟨h1, fun hx => h2 (List.mem_cons_of_mem _ hx)⟩
    | some p =>
      simp only [clean_rev, hp]
      by_cases hf : filter p = false
      · rw [if_pos hf]
        exact ih seen
      · rw [if_neg hf]
        by_cases hd : some p ∈ seen
        · rw [if_pos (show True ∧ some p ∈ seen from ⟨trivial, hd⟩)]
          exact ih seen
        · rw [if_neg (show ¬(True ∧ some p ∈ seen) from fun hx => hd hx.2)]
          obtain ⟨hnd, hall⟩ := ih (some p :: seen)
          rw [parsedCmds_cons_some hp]
          constructor
          · rw [List.nodup_cons]
            refine ⟨fun hx => ?_, hnd⟩
            exact (hall p hx).2 (List.mem_cons_self _ _)
          · intro c hc
            rcases List.mem_cons.mp hc with h | h
            · subst h
              exact ⟨eq_true_of_ne_false hf, hd⟩
            · obtain ⟨h1, h2⟩ := hall c h
              exact ⟨h1, fun hx => h2 (List.mem_cons_of_mem _ hx)⟩

lemma cleanRev_id_of_clean (st : ShellType) (l : List (List Char)) :
    ∀ seen : List (Option (List Char)),
      (parsedCmds st l).Nodup →
      (∀ c ∈ parsedCmds st l, filter c = true ∧ some c ∉ seen) →
      clean_rev st true l seen = l := by
  induction l with
  | nil => intro seen _ _; simp [clean_rev]
  | cons e rest ih =>
    intro seen hnd hcond
    cases hp : parse_history_entry e st with
    | none =>
      have hrest : parsedCmds st (e :: rest) = parsedCmds st rest :=
        parsedCmds_cons_none hp
      rw [hrest] at hnd hcond
      simp only [clean_rev, hp]
      congr 1
      refine ih (none :: seen) hnd fun c hc => ?_
      obtain ⟨h1, h2⟩ := hcond c hc
      refine ⟨h1, fun hx => ?_⟩
      rcases List.mem_cons.mp hx with h | h
      · exact Option.noConfusion h
      · exact h2 h
    | some p =>
      have hrest : parsedCmds st (e :: rest) = p :: parsedCmds st rest :=
        parsedCmds_cons_some hp
      rw [hrest] at hnd hcond
      have hcp := hcond p (List.mem_cons_self _ _)
      have hpnotin : p ∉ parsedCmds st rest := (List.nodup_cons.mp hnd).1
      simp only [clean_rev, hp]
      rw [if_neg (by simp [hcp.1])]
      rw [if_neg (show ¬(True ∧ some p ∈ seen) from fun hx => hcp.2 hx.2)]
      congr 1
      refine ih (some p :: seen) (List.nodup_cons.mp hnd).2 fun c hc => ?_
      obtain ⟨h1, h2⟩ := hcond c (List.mem_cons_of_mem _ hc)
      refine ⟨h1, fun hx => ?_⟩
      rcases List.mem_cons.mp hx with h | h
      · rw [Option.some.inj h] at hc
        exact hpnotin hc
      · exact h2 h

/-- C5: with deduplication enabled, `clean_history_file` is idempotent:
applying it to its own output returns that output unchanged. -/
theorem C5_idempotent (raw : List (List Char)) (st : ShellType) :
    clean_history_file (clean_history_file raw st true) st true
      = clean_history_file raw st true := by
  unfold clean_history_file
  rw [List.reverse_reverse]
  congr 1
  refine cleanRev_id_of_clean st _ []
    (cleanRev_output_invariant st raw.reverse []).1 fun c hc => ?_
  exact ⟨((cleanRev_output_invariant st raw.reverse []).2 c hc).1, by simp⟩

lemma indicator_sum_pos (c : List Char) :
    (0 < ((startsWithList.map
        (fun s => if starts_with c s then (1 : Nat) else 0)).sum))
      ↔ (starts_with c ("source".toList) = true
        ∨ starts_with c ("git commit".toList) = true) := by
  show (0 < (if starts_with c ("source".toList) then (1 : Nat) else 0)
      + ((if starts_with c ("git commit".toList) then (1 : Nat) else 0) + 0)) ↔ _
  by_cases h3 : starts_with c ("source".toList) = true <;>
    by_cases h4 : starts_with c ("git commit".toList) = true <;>
      simp at h3 h4 <;> simp [h3, h4]

/-- C7: `filter` returns `keep = false` exactly for the nine exact-match
commands, the six editor names, and the commands starting with `source`
or `git commit`; every other command is kept. -/
theorem C7_filter_rejects_exactly (c : List Char) :
    filter c = false ↔
      (c ∈ exactMatchList ∨ c ∈ editorsList
        ∨ starts_with c ("source".toList) = true
        ∨ starts_with c ("git commit".toList) = true) := by
  have hsum := indicator_sum_pos c
  unfold filter
  by_cases h1 : c ∈ exactMatchList
  · simp [h1]
  · by_cases h2 : c ∈ editorsList
    · simp [h1, h2]
    · by_cases h5 : (0 < ((startsWithList.map
          (fun s => if starts_with c s then (1 : Nat) else 0)).sum))
      · rw [if_neg h1, if_neg h2, if_pos h5]
        exact iff_of_true rfl (Or.inr (Or.inr (hsum.mp h5)))
      · rw [if_neg h1, if_neg h2, if_neg h5]
        refine iff_of_false (by simp) ?_
        rintro (h | h | h | h)
        · exact h1 h
        · exact h2 h
        · exact h5 (hsum.mpr (Or.inl h))
        · exact h5 (hsum.mpr (Or.inr h))

/-- C8: `get_shell_type` returns the ZSH (resp. BASH) variant exactly
when the `SHELL` value is present and its final path component is `zsh`
(resp. `bash`); in every other case — value unset or empty, or an
unrecognized basename — it is the error result carrying the diagnostic
message, modelling the printed message plus `sys.exit(1)`. -/
theorem C8_shell_detection (shell : Option (List Char)) :
    (get_shell_type shell = Except.ok ShellType.ZSH ↔
      ∃ s, shell = some s ∧ last_path_component s = ("zsh".toList))
    ∧ (get_shell_type shell = Except.ok ShellType.BASH ↔
      ∃ s, shell = some s ∧ last_path_component s = ("bash".toList))
    ∧ ((∃ msg, get_shell_type shell = Except.error msg) ↔
      ¬∃ s, shell = some s ∧ (last_path_component s = ("zsh".toList)
        ∨ last_path_component s = ("bash".toList))) := by
  cases shell with
  | none =>
    refine ⟨?_, ?_, ?_⟩ <;> simp [get_shell_type]
  | some s =>
    by_cases hnil : s = []
    · subst hnil
      refine ⟨?_, ?_, ?_⟩ <;> simp [get_shell_type] <;> decide
    · by_cases hz : last_path_component s = ("zsh".toList)
      · refine ⟨?_, ?_, ?_⟩ <;> simp [get_shell_type, hnil, hz]
      · by_cases hb : last_path_component s = ("bash".toList)
        · refine ⟨?_, ?_, ?_⟩ <;> simp [get_shell_type, hnil, hz, hb]
        · have hz' : ¬last_path_component s = ['z', 's', 'h'] := hz
          have hb' : ¬last_path_component s = ['b', 'a', 's', 'h'] := hb
          refine ⟨?_, ?_, ?_⟩ <;> simp [get_shell_type, hnil, hz', hb']

lemma cleanRev_bash_mem (e : List Char) (he : filter e = true)
    (dedup : Bool) (l : List (List Char)) :
    ∀ seen : List (Option (List Char)), e ∈ l → some e ∉ seen →
      e ∈ clean_rev ShellType.BASH dedup l seen := by
  induction l with
  | nil => intro seen h _; cases h
  | cons x rest ih =>
    intro seen hmem hsn
    by_cases hx : x = e
    · subst hx
      simp only [clean_rev, parse_history_entry]
      rw [if_neg (by simp [he])]
      rw [if_neg (show ¬(dedup = true ∧ some x ∈ seen) from fun hc => hsn hc.2)]
      exact List.mem_cons_self _ _
    · have hmem' : e ∈ rest := by
        rcases List.mem_cons.mp hmem with h | h
        · exact absurd h.symm hx
        · exact h
      simp only [clean_rev, parse_history_entry]
      by_cases hf : filter x = false
      · rw [if_pos hf]
        exact ih seen hmem' hsn
      · rw [if_neg hf]
        by_cases hd : dedup = true ∧ some x ∈ seen
        · rw [if_pos hd]
          exact ih seen hmem' hsn
        · rw [if_neg hd]
          refine List.mem_cons_of_mem _ (ih (some x :: seen) hmem' ?_)
          intro hin
          rcases List.mem_cons.mp hin with h | h
          · exact hx (Option.some.inj h).symm
          · exact hsn h

/-- C9: for the BASH variant the parser returns the raw line verbatim,
trailing newline included; consequently a raw line made of an exact-match
or editor command followed by a newline (as `readlines` yields) passes
the retention filter and is retained by `clean_history_file` — the
exact-match and editor rules fire only on lines without a terminator. -/
theorem C9_bash_trailing_newline_escapes_rules (c : List Char)
    (hc : c ∈ exactMatchList ∨ c ∈ editorsList) :
    (∀ e : List Char, parse_history_entry e ShellType.BASH = some e)
    ∧ filter (c ++ ['\n']) = true
    ∧ ∀ (raw : List (List Char)) (dedup : Bool), (c ++ ['\n']) ∈ raw →
        (c ++ ['\n']) ∈ clean_history_file raw ShellType.BASH dedup := by
  have hf : filter (c ++ ['\n']) = true := by
    rcases hc with h | h <;> fin_cases h <;> decide
  refine ⟨fun e => rfl, hf, ?_⟩
  intro raw dedup hmem
  unfold clean_history_file
  rw [List.mem_reverse]
  exact cleanRev_bash_mem _ hf dedup raw.reverse []
    (List.mem_reverse.mpr hmem) (by simp)

theorem C9_witness :
    (("cd".toList) ∈ exactMatchList ∨ ("cd".toList) ∈ editorsList)
    ∧ filter ("cd".toList ++ ['\n']) = true
    ∧ ("cd".toList ++ ['\n'])
        ∈ clean_history_file [("cd".toList ++ ['\n'])] ShellType.BASH true := by
  have h := C9_bash_trailing_newline_escapes_rules ("cd".toList)
    (Or.inl (by decide))
  exact ⟨Or.inl (by decide), h.2.1,
    h.2.2 [("cd".toList ++ ['\n'])] true (List.mem_singleton_self _)⟩

lemma zsh_search_eq_none_iff (s : List Char) :
    zsh_search s = none ↔ ∀ i, zsh_match_at (s.drop i) = none := by
  induction s with
  | nil =>
    simp only [zsh_search, List.drop_nil]
    exact iff_of_true trivial fun i => rfl
  | cons x rest ih =>
    simp only [zsh_search]
    cases hm : zsh_match_at (x :: rest) with
    | some cmd =>
      refine iff_of_false (fun h => Option.noConfusion h) fun h => ?_
      have h0 := h 0
      rw [List.drop_zero, hm] at h0
      exact Option.noConfusion h0
    | none =>
      rw [ih]
      constructor
      · intro h i
        cases i with
        | zero => rw [List.drop_zero]; exact hm
        | succ n => exact h n
      · intro h i
        exact h (i + 1)

lemma zsh_search_eq_of_first (s : List Char) :
    ∀ i : Nat, (zsh_match_at (s.drop i)).isSome = true →
      (∀ j, j < i → zsh_match_at (s.drop j) = none) →
      zsh_search s = zsh_match_at (s.drop i) := by
  induction s with
  | nil =>
    intro i hi _
    rw [List.drop_nil] at hi
    exact absurd hi (by decide)
  | cons x rest ih =>
    intro i hi hmin
    cases i with
    | zero =>
      rw [List.drop_zero] at hi ⊢
      simp only [zsh_search]
      cases hm : zsh_match_at (x :: rest) with
      | some cmd => rfl
      | none => rw [hm] at hi; exact absurd hi (by decide)
    | succ n =>
      have h0 : zsh_match_at (x :: rest) = none := by
        have := hmin 0 (Nat.succ_pos n)
        rwa [List.drop_zero] at this
      simp only [zsh_search, h0]
      exact ih n hi fun j hj => hmin (j + 1) (Nat.succ_lt_succ hj)

/-- C10: for the ZSH variant the parser performs an unanchored search:
parsing succeeds exactly when the pattern `: <digits>:<digits>;` followed
by at least one non-newline character matches at some position of the
line (`zsh_match_at` succeeds on some suffix, not only position 0), and
the returned command is the match made at the leftmost such position —
e.g. `echo : 1:2;x` parses to `x` instead of being unparseable. -/
theorem C10_zsh_unanchored_search (entry : List Char) :
    ((parse_history_entry entry ShellType.ZSH).isSome = true ↔
      ∃ i, (zsh_match_at (entry.drop i)).isSome = true)
    ∧ ∀ i, (zsh_match_at (entry.drop i)).isSome = true →
        (∀ j, j < i → zsh_match_at (entry.drop j) = none) →
        parse_history_entry entry ShellType.ZSH = zsh_match_at (entry.drop i) := by
  constructor
  · show (zsh_search entry).isSome = true ↔ _
    rw [Option.isSome_iff_ne_none, Ne, zsh_search_eq_none_iff, not_forall]
    constructor
    · rintro ⟨i, hi⟩
      exact ⟨i, Option.isSome_iff_ne_none.mpr hi⟩
    · rintro ⟨i, hi⟩
      exact ⟨i, Option.isSome_iff_ne_none.mp hi⟩
  · intro i hi hmin
    exact zsh_search_eq_of_first entry i hi hmin

theorem C10_witness :
    (zsh_match_at (("echo : 1:2;x".toList).drop 5)).isSome = true
    ∧ (∀ j, j < 5 → zsh_match_at (("echo : 1:2;x".toList).drop j) = none)
    ∧ parse_history_entry ("echo : 1:2;x".toList) ShellType.ZSH
        = some ("x".toList) := by
  refine ⟨by decide, by decide, ?_⟩
  have h := (C10_zsh_unanchored_search ("echo : 1:2;x".toList)).2 5
    (by decide) (by decide)
  exact h.trans (by decide)
